import Mathlib

/-!
Verification development for the `hackrf_sweep` backend
(`qspectrumanalyzer/backends/hackrf_sweep.py`).

The backend is embedded shallowly:

* Python integers become `ℕ`/`ℤ`; Python float arithmetic on frequencies,
  times and derived parameters is idealized as exact rational arithmetic
  (`ℚ`).  In the realistic parameter domain (frequencies in MHz up to a few
  thousand, 64-bit edge frequencies well below `2^53` Hz) every float value
  appearing in the source is an exactly representable rational and all the
  comparisons and divisions in the source are exact, so `ℚ` is the faithful
  denotation.
* Power samples are kept as the 32-bit words holding their IEEE-754 bit
  patterns: the source never performs arithmetic on them, it only appends
  them and uses them as tie-breakers when sorting.
* Code that raises a Python exception is modelled with `Except`: an
  exception aborts `parse_output` (and kills the reader thread), which the
  `Except` error propagation mirrors.
* `time.time()` results are passed in explicitly (`now`); the main loop
  receives a time oracle indexed by iteration.
-/

namespace HackRF

/-- Unsigned little-endian value of a byte list, least significant byte
first (`struct.unpack` with formats `I`/`Q` on little-endian data). -/
def leNum : List ℕ → ℕ
  | [] => 0
  | b :: bs => b + 256 * leNum bs

/-- Group a byte list into consecutive 4-byte little-endian words, in order
(`np.frombuffer(buf, dtype=LE 4-byte)`); a trailing group of fewer than 4
bytes is never present at the call site (the length is checked first). -/
def chunk4 : List ℕ → List ℕ
  | b0 :: b1 :: b2 :: b3 :: rest => leNum [b0, b1, b2, b3] :: chunk4 rest
  | _ => []

/-- A decoded sweep segment: the two 64-bit frequency edges (Hz) and the
ordered power samples, each sample recorded as the 32-bit word carrying its
IEEE-754 single-precision bit pattern. -/
structure Segment where
  low : ℕ
  high : ℕ
  samples : List ℕ
deriving Repr, DecidableEq

/-- The Python exceptions that can escape the per-frame pipeline. -/
inductive PErr where
  /-- `struct.error`: unpack applied to a buffer shorter than the format. -/
  | structError
  /-- `ValueError` from `np.frombuffer`: buffer size not a multiple of the
  element size. -/
  | bufferSizeError
  /-- `ZeroDivisionError` from `(high_edge - low_edge) / len(data)` when
  the payload carries no samples. -/
  | zeroDivision
  /-- `ZeroDivisionError` raised by `np.arange` when the step is zero. -/
  | arangeZeroStep
  /-- `ValueError` from unpacking `zip(*sorted_data)` when the buffer being
  published is empty. -/
  | emptyUnzip
deriving Repr, DecidableEq

/-- Lines 117-118 of `parse_output`: `struct.unpack('QQ', buf[:16])` and
`np.frombuffer(buf[16:], dtype='<f4')`.  `unpack` fails when fewer than 16
bytes are available; `frombuffer` fails when the remainder is not 4-byte
aligned; otherwise the first two unsigned 64-bit little-endian integers and
the ordered little-endian 32-bit sample words are produced. -/
def decodeSegment (buf : List ℕ) : Except PErr Segment :=
  if buf.length < 16 then .error .structError
  else if (buf.length - 16) % 4 ≠ 0 then .error .bufferSizeError
  else .ok ⟨leNum (buf.take 8), leNum ((buf.drop 8).take 8), chunk4 (buf.drop 16)⟩

/-- The configuration consulted by `parse_output`: the derived sweep range
(`self.params`, MHz), the local-oscillator offset (`self.lnb_lo`, Hz) and
the throttle interval (`self.interval`, seconds). -/
structure Params where
  start_freq : ℚ
  stop_freq : ℚ
  lnb_lo : ℚ
  interval : ℚ
deriving DecidableEq

/-- The mutable state of the sweep assembler: `self.databuffer["x"]`
(center frequencies, Hz), `self.databuffer["y"]` (power sample words, kept
parallel to `x`) and `self.lastsweep` (timestamp of the last publication). -/
structure SweepState where
  xbuf : List ℚ
  ybuf : List ℕ
  lastsweep : ℚ
deriving DecidableEq

/-- `step = (high_edge - low_edge) / len(data)` (line 119).  The edges are
Python integers, so the subtraction may be negative; the division is float
true division, exact on this domain. -/
def segStep (seg : Segment) : ℚ :=
  ((seg.high : ℚ) - (seg.low : ℚ)) / (seg.samples.length : ℚ)

/-- `np.arange(start, stop, step)` for a nonzero rational step: the
arithmetic progression `start, start + step, ...` of length
`⌈(stop - start) / step⌉` (clamped at zero). -/
def arange (start stop step : ℚ) : List ℚ :=
  (List.range (⌈(stop - start) / step⌉).toNat).map fun k : ℕ => start + (k : ℚ) * step

/-- Line 125: the generated center frequencies
`np.arange(low_edge + lnb_lo + step/2, high_edge + lnb_lo, step)`. -/
def xAxis (p : Params) (seg : Segment) : List ℚ :=
  arange ((seg.low : ℚ) + p.lnb_lo + segStep seg / 2)
    ((seg.high : ℚ) + p.lnb_lo) (segStep seg)

/-- The boundary/reset condition of line 121:
`(low_edge // 1000000) <= self.params["start_freq"] - self.lnb_lo / 1e6`.
`low_edge` is a Python integer, so `//` is integer floor division. -/
def resetCond (p : Params) (seg : Segment) : Prop :=
  ((seg.low / 1000000 : ℕ) : ℚ) ≤ p.start_freq - p.lnb_lo / 1000000

instance (p : Params) (seg : Segment) : Decidable (resetCond p seg) := by
  unfold resetCond; infer_instance

/-- Lines 121-128 of `parse_output`: reset the data buffer when the reset
condition holds, then append the segment's center frequencies and power
samples.  `lastsweep` is untouched here. -/
def assembleStep (p : Params) (st : SweepState) (seg : Segment) : SweepState :=
  let buf : SweepState := if resetCond p seg then ⟨[], [], st.lastsweep⟩ else st
  ⟨buf.xbuf ++ xAxis p seg, buf.ybuf ++ seg.samples, st.lastsweep⟩

/-- The comparison used by Python's `sorted` on the `(x, y)` pairs:
lexicographic order, frequency first. -/
def lexLe (a b : ℚ × ℕ) : Bool :=
  decide (a.1 < b.1 ∨ (a.1 = b.1 ∧ a.2 ≤ b.2))

/-- Lines 137-138: `sorted_data = sorted(zip(x, y))` followed by
`x, y = [list(col) for col in zip(*sorted_data)]`.  Unpacking `zip(*[])`
into two names raises a `ValueError` when the pair list is empty. -/
def publishStep (xs : List ℚ) (ys : List ℕ) : Except PErr (List ℚ × List ℕ) :=
  let sorted := (xs.zip ys).mergeSort lexLe
  if sorted = [] then .error .emptyUnzip
  else .ok (sorted.map Prod.fst, sorted.map Prod.snd)

/-- Lines 119-139 of `parse_output`, after decoding: compute the step
(`ZeroDivisionError` when there are no samples, and `np.arange` raises when
the step is zero), run the reset/append phase, and on the completion
condition `(high_edge / 1e6) >= stop_freq - lnb_lo / 1e6` either drop the
sweep (when `now < lastsweep + interval`) or record `now`, sort the buffer
and hand the sorted columns to the data sink.  The second component of the
result is the published sweep, when one is published. -/
def processSegment (p : Params) (st : SweepState) (now : ℚ) (seg : Segment) :
    Except PErr (SweepState × Option (List ℚ × List ℕ)) :=
  if seg.samples.length = 0 then .error .zeroDivision
  else if segStep seg = 0 then .error .arangeZeroStep
  else
    let st1 := assembleStep p st seg
    if (seg.high : ℚ) / 1000000 ≥ p.stop_freq - p.lnb_lo / 1000000 then
      if now < st.lastsweep + p.interval then .ok (st1, none)
      else
        match publishStep st1.xbuf st1.ybuf with
        | .error e => .error e
        | .ok (sx, sy) => .ok (⟨sx, sy, now⟩, some (sx, sy))
    else .ok (st1, none)

/-- `parse_output(self, buf)`: decode the payload, then fold the segment
into the assembler state. -/
def parse_output (p : Params) (st : SweepState) (now : ℚ) (buf : List ℕ) :
    Except PErr (SweepState × Option (List ℚ × List ℕ)) :=
  match decodeSegment buf with
  | .error e => .error e
  | .ok seg => processSegment p st now seg

/-- How the main loop ends: `stopped` is the normal fall-through to
`process_stop` (a `break` out of the `while`), `fatal e` is an uncaught
exception killing the thread. -/
inductive RunEnd where
  | stopped
  | fatal (e : PErr)
deriving Repr, DecidableEq

/-- The `while self.alive` loop of `run` (lines 147-167), reading from the
byte stream `s`: read 4 bytes (an empty read breaks out normally; a
nonempty read of fewer than 4 bytes makes `struct.unpack('I', buf)` raise),
interpret them as the unsigned 32-bit record length, read that many payload
bytes (an empty read breaks out normally), and hand a nonempty payload to
`parse_output`.  A blocking `read(n)` on a buffered pipe returns `min n`
available bytes, so it is modelled by `take`.  `tm i` is the value
`time.time()` would return during iteration `i`; published sweeps are
collected in order. -/
def runLoop (p : Params) (tm : ℕ → ℚ) (i : ℕ) (s : List ℕ) (st : SweepState) :
    List (List ℚ × List ℕ) × RunEnd :=
  match s with
  | [] => ([], .stopped)
  | b0 :: b1 :: b2 :: b3 :: rest =>
    let payload := rest.take (leNum [b0, b1, b2, b3])
    if payload = [] then ([], .stopped)
    else
      match parse_output p st (tm i) payload with
      | .error e => ([], .fatal e)
      | .ok (st', pub) =>
        let r := runLoop p tm (i + 1) (rest.drop (leNum [b0, b1, b2, b3])) st'
        (pub.toList ++ r.1, r.2)
  | _ => ([], .fatal .structError)
termination_by s.length
decreasing_by simp [List.length_drop]; omega

/-- The 4-byte little-endian encoding of an unsigned 32-bit length, used to
describe well-formed input streams. -/
def enc32 (n : ℕ) : List ℕ :=
  [n % 256, n / 256 % 256, n / 65536 % 256, n / 16777216 % 256]

/-- `step_count = 1 + (total_bandwidth - 1) // step_bandwidth` (line 54);
`step_bandwidth = sample_rate / 1000000` is float true division and `//`
floor division, both exact here. -/
def step_count (start_freq stop_freq sample_rate : ℤ) : ℤ :=
  1 + ⌊((stop_freq - start_freq : ℤ) - 1 : ℚ) / ((sample_rate : ℚ) / 1000000)⌋

/-- `if bin_size < 3: bin_size = 3` / `if bin_size > 5000: bin_size = 5000`
(lines 45-48). -/
def clampBin (bin_size : ℤ) : ℤ :=
  if bin_size < 3 then 3 else if bin_size > 5000 then 5000 else bin_size

/-- `if gain > 102: gain = 102` (lines 59-60). -/
def clampGain (gain : ℤ) : ℤ := if gain > 102 then 102 else gain

/-- The fields of `self.params`/`self.lnb_lo`/`self.interval` produced by
`setup` that the claims are about. -/
structure SetupResult where
  start_freq : ℚ
  stop_freq : ℚ
  bin_size : ℤ
  gain : ℤ
  lna_gain : ℤ
  vga_gain : ℤ
  interval : ℚ
  single_shot : Bool
  lnb_lo : ℚ
deriving DecidableEq

/-- `PowerThread.setup` (lines 38-82): clamp the bin size, derive the
quantized stop frequency from the whole-MHz step count, and split the
(clamped) gain across the two analog stages with Python floor division
(`Int.fdiv`).  The source performs no range validation and raises no
exception: `setup` is total. -/
def setup (start_freq stop_freq bin_size gain sample_rate : ℤ)
    (interval lnb_lo : ℚ) (single_shot : Bool) : SetupResult :=
  let bin := clampBin bin_size
  let sc := step_count start_freq stop_freq sample_rate
  let stop' : ℚ := (start_freq : ℚ) + (sc : ℚ) * ((sample_rate : ℚ) / 1000000)
  let g := clampGain gain
  let lna := if 0 ≤ g then 8 * (Int.fdiv g 18) else 0
  let vga := if 0 ≤ g then 2 * (Int.fdiv (g - lna) 2) else 0
  ⟨(start_freq : ℚ), stop', bin, g, lna, vga, interval, single_shot, lnb_lo⟩

end HackRF

namespace HackRF

/-! ### Helper lemmas -/

theorem lexLe_trans (a b c : ℚ × ℕ) (hab : lexLe a b = true) (hbc : lexLe b c = true) :
    lexLe a c = true := by
  simp only [lexLe, decide_eq_true_eq] at hab hbc ⊢
  rcases hab with h1 | ⟨h1, h2⟩ <;> rcases hbc with h3 | ⟨h3, h4⟩
  · exact Or.inl (h1.trans h3)
  · exact Or.inl (h3 ▸ h1)
  · exact Or.inl (h1 ▸ h3)
  · exact Or.inr ⟨h1.trans h3, h2.trans h4⟩

theorem lexLe_total (a b : ℚ × ℕ) : (lexLe a b || lexLe b a) = true := by
  simp only [lexLe, Bool.or_eq_true, decide_eq_true_eq]
  rcases lt_trichotomy a.1 b.1 with h | h | h
  · exact Or.inl (Or.inl h)
  · rcases Nat.le_total a.2 b.2 with h2 | h2
    · exact Or.inl (Or.inr ⟨h, h2⟩)
    · exact Or.inr (Or.inr ⟨h.symm, h2⟩)
  · exact Or.inr (Or.inl h)

theorem lexLe_fst_le (a b : ℚ × ℕ) (h : lexLe a b = true) : a.1 ≤ b.1 := by
  simp only [lexLe, decide_eq_true_eq] at h
  rcases h with h | ⟨h, _⟩
  · exact le_of_lt h
  · exact le_of_eq h

/-- Integer ceiling of an integer-by-natural quotient, written the way the
source computes it: `ceil(a / d) = 1 + (a - 1) // d`. -/
theorem ceil_intCast_div (a : ℤ) (d : ℕ) (hd : 0 < d) :
    ⌈(a : ℚ) / (d : ℚ)⌉ = 1 + (a - 1) / (d : ℤ) := by
  have hd0 : (0 : ℚ) < (d : ℚ) := by exact_mod_cast hd
  have hdz : ((d : ℤ)) ≠ 0 := by positivity
  have h1 : (d : ℤ) * ((a - 1) / (d : ℤ)) + (a - 1) % (d : ℤ) = a - 1 :=
    Int.ediv_add_emod _ _
  have hr0 : 0 ≤ (a - 1) % (d : ℤ) := Int.emod_nonneg _ hdz
  have hrd : (a - 1) % (d : ℤ) < (d : ℤ) := Int.emod_lt_of_pos _ (by exact_mod_cast hd)
  have h1q : (d : ℚ) * (((a - 1) / (d : ℤ) : ℤ) : ℚ) + (((a - 1) % (d : ℤ) : ℤ) : ℚ)
      = (a : ℚ) - 1 := by exact_mod_cast h1
  have hr0q : (0 : ℚ) ≤ (((a - 1) % (d : ℤ) : ℤ) : ℚ) := by exact_mod_cast hr0
  have hrd1 : (a - 1) % (d : ℤ) ≤ (d : ℤ) - 1 := by omega
  have hrdq : (((a - 1) % (d : ℤ) : ℤ) : ℚ) ≤ (d : ℚ) - 1 := by exact_mod_cast hrd1
  rw [Int.ceil_eq_iff]
  constructor
  · rw [lt_div_iff₀ hd0]
    push_cast
    nlinarith [h1q, hr0q]
  · rw [div_le_iff₀ hd0]
    push_cast
    nlinarith [h1q, hrdq]

/-! ### C1: published sweeps are frequency-sorted and pair-preserving -/

/-- C1.  For every buffer contents (two parallel columns of equal length,
nonempty as every completed sweep's buffer is, since the completing segment
itself appends its points first), the publish step hands the sink two
equal-length columns whose frequency column is ascending, and whose pairs
are exactly (as a multiset, i.e. up to permutation) the pairs accumulated
in the buffer — regardless of the order in which segments appended them. -/
theorem sweep_publish_sorted (xs : List ℚ) (ys : List ℕ)
    (hlen : xs.length = ys.length) (hne : xs ≠ []) :
    ∃ sx sy, publishStep xs ys = .ok (sx, sy) ∧
      sx.length = xs.length ∧ sy.length = ys.length ∧
      sx.Sorted (· ≤ ·) ∧ (sx.zip sy).Perm (xs.zip ys) := by
  have hperm : ((xs.zip ys).mergeSort lexLe).Perm (xs.zip ys) :=
    List.mergeSort_perm _ _
  have hzlen : (xs.zip ys).length = xs.length := by
    rw [List.length_zip, hlen, min_self]
  have hsne : (xs.zip ys).mergeSort lexLe ≠ [] := by
    intro h
    have hl := hperm.length_eq
    rw [h, hzlen] at hl
    exact hne (List.length_eq_zero.mp hl.symm)
  refine ⟨((xs.zip ys).mergeSort lexLe).map Prod.fst,
    ((xs.zip ys).mergeSort lexLe).map Prod.snd, ?_, ?_, ?_, ?_, ?_⟩
  · simp only [publishStep, if_neg hsne]
  · rw [List.length_map, hperm.length_eq, hzlen]
  · rw [List.length_map, hperm.length_eq, hzlen, hlen]
  · have hs := List.sorted_mergeSort lexLe_trans lexLe_total (xs.zip ys)
    exact List.Pairwise.map Prod.fst lexLe_fst_le hs
  · have hz : (((xs.zip ys).mergeSort lexLe).map Prod.fst).zip
        (((xs.zip ys).mergeSort lexLe).map Prod.snd) = (xs.zip ys).mergeSort lexLe := by
      have hu := List.zip_unzip ((xs.zip ys).mergeSort lexLe)
      rwa [List.unzip_eq_map] at hu
    rw [hz]
    exact hperm

/-- Witness for C1 at a concrete out-of-order buffer. -/
theorem sweep_publish_sorted_witness :
    ∃ sx sy, publishStep [2, 1] [5, 6] = .ok (sx, sy) ∧
      sx.length = ([2, 1] : List ℚ).length ∧ sy.length = ([5, 6] : List ℕ).length ∧
      sx.Sorted (· ≤ ·) ∧
      (sx.zip sy).Perm (([2, 1] : List ℚ).zip ([5, 6] : List ℕ)) :=
  sweep_publish_sorted [2, 1] [5, 6] rfl (by simp)

end HackRF

namespace HackRF

/-! ### C2: whole-MHz step count is an exact integer ceiling -/

/-- C2.  For a sweep request with `stop_freq > start_freq` and a whole-MHz
sample rate (the only rates the backend supports: the device metadata pins
`sample_rate` to 20000000), `setup` computes
`step_count = ceil((stop - start) / (sample_rate/1e6))` exactly, the
derived stop frequency is `start + step_count * (sample_rate/1e6)`, so it
is at least the requested stop frequency and the derived span is an exact
integer multiple of `sample_rate/1e6`. -/
theorem derived_stop_ceiling (start stop bin gain sample_rate : ℤ) (m : ℕ)
    (interval lnb : ℚ) (ss : Bool)
    (hm : sample_rate = 1000000 * (m : ℤ)) (hm0 : 0 < m) (hlt : start < stop) :
    step_count start stop sample_rate
      = ⌈((stop : ℚ) - (start : ℚ)) / ((sample_rate : ℚ) / 1000000)⌉ ∧
    (setup start stop bin gain sample_rate interval lnb ss).stop_freq
      = (start : ℚ) + (step_count start stop sample_rate : ℚ)
          * ((sample_rate : ℚ) / 1000000) ∧
    (stop : ℚ) ≤ (setup start stop bin gain sample_rate interval lnb ss).stop_freq ∧
    ∃ k : ℤ, (setup start stop bin gain sample_rate interval lnb ss).stop_freq
        - (setup start stop bin gain sample_rate interval lnb ss).start_freq
      = (k : ℚ) * ((sample_rate : ℚ) / 1000000) := by
  have hm0' : (0 : ℚ) < (m : ℚ) := by exact_mod_cast hm0
  have hsb : (sample_rate : ℚ) / 1000000 = (m : ℚ) := by
    rw [hm]; push_cast; field_simp
  have hfloor : step_count start stop sample_rate = 1 + (stop - start - 1) / (m : ℤ) := by
    unfold step_count
    rw [hsb]
    have hcast : ((stop - start : ℤ) : ℚ) - 1 = ((stop - start - 1 : ℤ) : ℚ) := by
      push_cast; ring
    rw [hcast, Rat.floor_intCast_div_natCast]
  have hceil : ⌈((stop : ℚ) - (start : ℚ)) / ((sample_rate : ℚ) / 1000000)⌉
      = 1 + (stop - start - 1) / (m : ℤ) := by
    rw [hsb]
    have hcast : (stop : ℚ) - (start : ℚ) = ((stop - start : ℤ) : ℚ) := by push_cast; ring
    rw [hcast, ceil_intCast_div _ _ hm0]
  have hmain : step_count start stop sample_rate
      = ⌈((stop : ℚ) - (start : ℚ)) / ((sample_rate : ℚ) / 1000000)⌉ :=
    hfloor.trans hceil.symm
  have hstop : (setup start stop bin gain sample_rate interval lnb ss).stop_freq
      = (start : ℚ) + (step_count start stop sample_rate : ℚ)
          * ((sample_rate : ℚ) / 1000000) := by
    simp [setup]
  refine ⟨hmain, hstop, ?_, ⟨step_count start stop sample_rate, ?_⟩⟩
  · have hX := Int.le_ceil (((stop : ℚ) - (start : ℚ)) / ((sample_rate : ℚ) / 1000000))
    rw [← hmain] at hX
    rw [hsb] at hX
    rw [div_le_iff₀ hm0'] at hX
    rw [hstop, hsb]
    linarith
  · rw [hstop]
    simp [setup]

/-- Witness for C2 at the spec's scenario: `sample_rate = 20000000`,
`start_freq = 0`, `stop_freq = 6000` give `step_count = 300` and a derived
stop frequency of exactly 6000. -/
theorem derived_stop_ceiling_witness :
    step_count 0 6000 20000000 = 300 ∧
    (setup 0 6000 1000 40 20000000 0 0 false).stop_freq = 6000 := by
  have h := derived_stop_ceiling 0 6000 1000 40 20000000 20 0 0 false (by norm_num)
    (by norm_num) (by norm_num)
  have hc : ⌈(((6000 : ℤ) : ℚ) - ((0 : ℤ) : ℚ)) / (((20000000 : ℤ) : ℚ) / 1000000)⌉
      = 300 := by
    rw [show (((6000 : ℤ) : ℚ) - ((0 : ℤ) : ℚ)) / (((20000000 : ℤ) : ℚ) / 1000000)
        = ((300 : ℤ) : ℚ) by norm_num]
    exact Int.ceil_intCast 300
  have h1 : step_count 0 6000 20000000 = 300 := by
    rw [h.1]
    exact hc
  refine ⟨h1, ?_⟩
  have h2 := h.2.1
  rw [h1] at h2
  rw [h2]
  norm_num

/-! ### C3: gain splitting across the two analog stages -/

/-- C3.  `setup` clamps the gain to at most 102; a negative gain leaves
both stages at 0; a nonnegative gain gives `lna = 8 * floor(gain / 18)`
and `vga = 2 * floor((gain - lna) / 2)`; and for every gain in `[0, 102]`
the stages are multiples of 8 and 2 respectively, their sum never exceeds
the requested gain, and falls short of it by at most 9 dB. -/
theorem gain_stage_split (start stop bin gain sample_rate : ℤ)
    (interval lnb : ℚ) (ss : Bool) :
    (setup start stop bin gain sample_rate interval lnb ss).gain ≤ 102 ∧
    (gain < 0 →
      (setup start stop bin gain sample_rate interval lnb ss).lna_gain = 0 ∧
      (setup start stop bin gain sample_rate interval lnb ss).vga_gain = 0) ∧
    (0 ≤ gain →
      (setup start stop bin gain sample_rate interval lnb ss).lna_gain
        = 8 * Int.fdiv (clampGain gain) 18 ∧
      (setup start stop bin gain sample_rate interval lnb ss).vga_gain
        = 2 * Int.fdiv (clampGain gain - 8 * Int.fdiv (clampGain gain) 18) 2) ∧
    (0 ≤ gain → gain ≤ 102 →
      8 ∣ (setup start stop bin gain sample_rate interval lnb ss).lna_gain ∧
      2 ∣ (setup start stop bin gain sample_rate interval lnb ss).vga_gain ∧
      (setup start stop bin gain sample_rate interval lnb ss).lna_gain
        + (setup start stop bin gain sample_rate interval lnb ss).vga_gain ≤ gain ∧
      gain - ((setup start stop bin gain sample_rate interval lnb ss).lna_gain
        + (setup start stop bin gain sample_rate interval lnb ss).vga_gain) ≤ 9) := by
  refine ⟨?_, ?_, ?_, ?_⟩
  · simp only [setup, clampGain]
    split <;> omega
  · intro hneg
    have hc : clampGain gain = gain := by simp only [clampGain]; omega
    simp only [setup, hc, if_neg (by omega : ¬ (0 : ℤ) ≤ gain)]
    exact ⟨trivial, trivial⟩
  · intro hpos
    have hc : 0 ≤ clampGain gain := by simp only [clampGain]; split <;> omega
    simp only [setup, if_pos hc]
    exact ⟨trivial, trivial⟩
  · intro hpos h102
    have hc : clampGain gain = gain := by simp only [clampGain]; omega
    simp only [setup, hc, if_pos hpos]
    rw [Int.fdiv_eq_ediv _ (by norm_num : (0:ℤ) ≤ 18)]
    rw [Int.fdiv_eq_ediv _ (by norm_num : (0:ℤ) ≤ 2)]
    omega

/-- Witness for C3 at the default gain 40: the stages are 16 and 24. -/
theorem gain_stage_split_witness :
    8 ∣ (setup 0 6000 1000 40 20000000 0 0 false).lna_gain ∧
    2 ∣ (setup 0 6000 1000 40 20000000 0 0 false).vga_gain ∧
    (setup 0 6000 1000 40 20000000 0 0 false).lna_gain
      + (setup 0 6000 1000 40 20000000 0 0 false).vga_gain ≤ 40 ∧
    (40 : ℤ) - ((setup 0 6000 1000 40 20000000 0 0 false).lna_gain
      + (setup 0 6000 1000 40 20000000 0 0 false).vga_gain) ≤ 9 :=
  (gain_stage_split 0 6000 1000 40 20000000 0 0 false).2.2.2
    (by norm_num) (by norm_num)

end HackRF

namespace HackRF

/-! ### Segment coordinate generation -/

theorem segStep_pos (seg : Segment) (hn : seg.samples ≠ []) (hlh : seg.low < seg.high) :
    0 < segStep seg := by
  have hn0 : 0 < seg.samples.length := List.length_pos.mpr hn
  have hnq : (0 : ℚ) < (seg.samples.length : ℚ) := by exact_mod_cast hn0
  have hlhq : (seg.low : ℚ) < (seg.high : ℚ) := by exact_mod_cast hlh
  exact div_pos (by linarith) hnq

/-- The generated x axis of a segment with at least one sample and a
positive span is exactly the arithmetic progression of bin centers, one per
sample: `np.arange` emits `ceil(((high - low) - step/2) / step) = n`
values. -/
theorem xAxis_eq (p : Params) (seg : Segment) (hn : seg.samples ≠ [])
    (hlh : seg.low < seg.high) :
    xAxis p seg = (List.range seg.samples.length).map
      (fun k : ℕ => (seg.low : ℚ) + p.lnb_lo + segStep seg / 2 + (k : ℚ) * segStep seg) := by
  have hn0 : 0 < seg.samples.length := List.length_pos.mpr hn
  have hnq : (0 : ℚ) < (seg.samples.length : ℚ) := by exact_mod_cast hn0
  have hstep : 0 < segStep seg := segStep_pos seg hn hlh
  have hmul : (seg.high : ℚ) - (seg.low : ℚ) = (seg.samples.length : ℚ) * segStep seg := by
    unfold segStep
    rw [mul_comm, div_mul_cancel₀ _ (ne_of_gt hnq)]
  have hkey : ((seg.high : ℚ) + p.lnb_lo - ((seg.low : ℚ) + p.lnb_lo + segStep seg / 2))
      / segStep seg = (seg.samples.length : ℚ) - 1 / 2 := by
    rw [div_eq_iff (ne_of_gt hstep)]
    linear_combination hmul
  have hceil : ⌈(seg.samples.length : ℚ) - 1 / 2⌉ = (seg.samples.length : ℤ) := by
    rw [Int.ceil_eq_iff]
    constructor
    · push_cast
      linarith
    · push_cast
      linarith
  unfold xAxis arange
  rw [hkey, hceil, Int.toNat_natCast]

/-! ### C4: boundary reset discards prior contents, append is atomic -/

/-- C4.  For every decoded segment (with at least one sample and a positive
frequency span, so that coordinate generation succeeds), the reset/append
phase replaces the buffer with an empty one exactly when
`floor(low_edge / 1e6) ≤ start_freq - lnb_lo / 1e6`, discarding any prior
partial contents, and otherwise preserves the prior contents; in both
cases the segment's `sample_count` points are appended after them, all
into that single buffer. -/
theorem sweep_reset_boundary (p : Params) (st : SweepState) (seg : Segment)
    (hn : seg.samples ≠ []) (hlh : seg.low < seg.high) :
    (((seg.low / 1000000 : ℕ) : ℚ) ≤ p.start_freq - p.lnb_lo / 1000000 →
      assembleStep p st seg = ⟨xAxis p seg, seg.samples, st.lastsweep⟩) ∧
    (¬ ((seg.low / 1000000 : ℕ) : ℚ) ≤ p.start_freq - p.lnb_lo / 1000000 →
      assembleStep p st seg
        = ⟨st.xbuf ++ xAxis p seg, st.ybuf ++ seg.samples, st.lastsweep⟩) ∧
    (xAxis p seg).length = seg.samples.length := by
  refine ⟨?_, ?_, ?_⟩
  · intro h
    have hr : resetCond p seg := h
    simp [assembleStep, if_pos hr]
  · intro h
    have hr : ¬ resetCond p seg := h
    simp [assembleStep, if_neg hr]
  · rw [xAxis_eq p seg hn hlh]
    simp only [List.length_map, List.length_range]

/-- Witness for C4: the first segment of the spec's two-segment scenario
resets the partially filled buffer and lands its four points alone. -/
theorem sweep_reset_boundary_witness :
    assembleStep ⟨0, 40, 0, 0⟩ ⟨[1], [9], 0⟩ ⟨0, 20000000, [10, 11, 12, 13]⟩
      = ⟨xAxis ⟨0, 40, 0, 0⟩ ⟨0, 20000000, [10, 11, 12, 13]⟩, [10, 11, 12, 13], 0⟩ ∧
    (xAxis ⟨0, 40, 0, 0⟩ ⟨0, 20000000, [10, 11, 12, 13]⟩).length = 4 := by
  have h := sweep_reset_boundary ⟨0, 40, 0, 0⟩ ⟨[1], [9], 0⟩ ⟨0, 20000000, [10, 11, 12, 13]⟩
    (by simp) (by norm_num)
  exact ⟨h.1 (by norm_num), h.2.2⟩

/-! ### C5: a throttled completion drops the sweep and nothing else -/

/-- C5.  When a segment triggers the completion check but arrives inside
the throttle window (`now < lastsweep + interval`), `parse_output` returns
without publishing: the sink is not invoked (no published sweep), the
last-publish timestamp is unchanged, and the buffer is exactly the
reset/append-phase buffer — it is not cleared and keeps the accumulated
points. -/
theorem throttle_drop_no_effect (p : Params) (st : SweepState) (now : ℚ) (seg : Segment)
    (hn : seg.samples ≠ []) (hne : seg.low ≠ seg.high)
    (hcomp : (seg.high : ℚ) / 1000000 ≥ p.stop_freq - p.lnb_lo / 1000000)
    (hthr : now < st.lastsweep + p.interval) :
    processSegment p st now seg = .ok (assembleStep p st seg, none) ∧
    (assembleStep p st seg).lastsweep = st.lastsweep := by
  have hn0 : ¬ seg.samples.length = 0 := by
    simpa [List.length_eq_zero] using hn
  have hsne : ¬ segStep seg = 0 := by
    unfold segStep
    apply div_ne_zero
    · have hq : (seg.low : ℚ) ≠ (seg.high : ℚ) := by exact_mod_cast hne
      intro hcontra
      exact hq (by linarith)
    · intro hcontra
      exact hn0 (by exact_mod_cast hcontra)
  refine ⟨?_, rfl⟩
  simp only [processSegment, if_neg hn0, if_neg hsne, ge_iff_le, if_pos hcomp, if_pos hthr]

/-- Witness for C5 at the spec's throttle scenario: interval 5 s, the
second completion 1 s after a publication at time 10 is dropped. -/
theorem throttle_drop_no_effect_witness :
    processSegment ⟨0, 40, 0, 5⟩ ⟨[], [], 10⟩ 11 ⟨0, 40000000, [100, 200]⟩
      = .ok (assembleStep ⟨0, 40, 0, 5⟩ ⟨[], [], 10⟩ ⟨0, 40000000, [100, 200]⟩, none) ∧
    (assembleStep ⟨0, 40, 0, 5⟩ ⟨[], [], 10⟩ ⟨0, 40000000, [100, 200]⟩).lastsweep = 10 :=
  throttle_drop_no_effect ⟨0, 40, 0, 5⟩ ⟨[], [], 10⟩ 11 ⟨0, 40000000, [100, 200]⟩
    (by simp) (by norm_num) (by norm_num) (by norm_num)

/-! ### C6: coordinate-generation round trip -/

/-- Counterexample to C6 as stated: a decodable segment with
`sample_count = 1` but `low_edge = high_edge` has `step = 0`, and
`np.arange` raises `ZeroDivisionError` — no pairs are appended at all, so
the round-trip property does not hold for every segment with
`sample_count ≥ 1`. -/
theorem coordinate_roundtrip_cex :
    processSegment ⟨0, 40, 0, 0⟩ ⟨[], [], 0⟩ 0 ⟨0, 0, [7]⟩ = .error .arangeZeroStep := by
  norm_num [processSegment, segStep]

/-- C6 (amended: additionally requiring `low_edge < high_edge`, forced by
the counterexample above).  For every decoded segment with at least one
sample and a positive span, the generated frequencies are exactly
`low + lnb_lo + step/2 + k * step` for `k = 0 … sample_count - 1`, i.e.
`sample_count` strictly increasing values starting at
`low + lnb_lo + step/2`, and the assembler appends exactly these paired
with the segment's samples, in segment order. -/
theorem coordinate_roundtrip (p : Params) (st : SweepState) (seg : Segment)
    (hn : seg.samples ≠ []) (hlh : seg.low < seg.high) :
    xAxis p seg = (List.range seg.samples.length).map
      (fun k : ℕ => (seg.low : ℚ) + p.lnb_lo + segStep seg / 2 + (k : ℚ) * segStep seg) ∧
    (xAxis p seg).length = seg.samples.length ∧
    (xAxis p seg).Pairwise (· < ·) ∧
    (assembleStep p st seg).xbuf
      = (if resetCond p seg then [] else st.xbuf) ++ xAxis p seg ∧
    (assembleStep p st seg).ybuf
      = (if resetCond p seg then [] else st.ybuf) ++ seg.samples := by
  have heq := xAxis_eq p seg hn hlh
  have hstep : 0 < segStep seg := segStep_pos seg hn hlh
  refine ⟨heq, ?_, ?_, ?_, ?_⟩
  · rw [heq]
    simp only [List.length_map, List.length_range]
  · rw [heq]
    refine List.Pairwise.map _ ?_ (List.pairwise_lt_range _)
    intro a b hab
    have habq : (a : ℚ) < (b : ℚ) := by exact_mod_cast hab
    have hmul := mul_lt_mul_of_pos_right habq hstep
    linarith
  · simp only [assembleStep]
    split <;> simp
  · simp only [assembleStep]
    split <;> simp

/-- Witness for C6 on a concrete 4-sample segment. -/
theorem coordinate_roundtrip_witness :
    xAxis ⟨0, 40, 0, 0⟩ ⟨0, 20000000, [10, 11, 12, 13]⟩
      = (List.range 4).map (fun k : ℕ => (0 : ℚ) + 0
          + segStep ⟨0, 20000000, [10, 11, 12, 13]⟩ / 2
          + (k : ℚ) * segStep ⟨0, 20000000, [10, 11, 12, 13]⟩) ∧
    (xAxis ⟨0, 40, 0, 0⟩ ⟨0, 20000000, [10, 11, 12, 13]⟩).Pairwise (· < ·) := by
  have h := coordinate_roundtrip ⟨0, 40, 0, 0⟩ ⟨[], [], 0⟩ ⟨0, 20000000, [10, 11, 12, 13]⟩
    (by simp) (by norm_num)
  exact ⟨h.1, h.2.2.1⟩

end HackRF

namespace HackRF

/-! ### Byte-level decoding lemmas -/

theorem chunk4_length : ∀ l : List ℕ, (chunk4 l).length = l.length / 4
  | b0 :: b1 :: b2 :: b3 :: rest => by
    have ih := chunk4_length rest
    simp only [chunk4, List.length_cons, ih]
    omega
  | [] => by simp [chunk4]
  | [a] => by simp [chunk4]
  | [a, b] => by simp [chunk4]
  | [a, b, c] => by simp [chunk4]

theorem chunk4_getElem : ∀ (l : List ℕ) (k : ℕ), k < l.length / 4 →
    (chunk4 l)[k]? = some (leNum ((l.drop (4 * k)).take 4))
  | b0 :: b1 :: b2 :: b3 :: rest, 0, _ => by
    simp only [chunk4, List.getElem?_cons_zero, Nat.mul_zero, List.drop_zero]
    rfl
  | b0 :: b1 :: b2 :: b3 :: rest, k + 1, hk => by
    have hk' : k < rest.length / 4 := by
      simp only [List.length_cons] at hk
      omega
    have ih := chunk4_getElem rest k hk'
    simp only [chunk4, List.getElem?_cons_succ, ih]
    have h4 : 4 * (k + 1) = 4 * k + 1 + 1 + 1 + 1 := by ring
    rw [h4]
    simp only [List.drop_succ_cons]
  | [], k, hk => by
    simp only [List.length_nil] at hk
    omega
  | [a], k, hk => by
    simp only [List.length_cons, List.length_nil] at hk
    omega
  | [a, b], k, hk => by
    simp only [List.length_cons, List.length_nil] at hk
    omega
  | [a, b, c], k, hk => by
    simp only [List.length_cons, List.length_nil] at hk
    omega

theorem leNum_enc32 (n : ℕ) (h : n < 4294967296) : leNum (enc32 n) = n := by
  simp only [enc32, leNum]
  omega

/-- Unfolding of one iteration of the read loop on a stream offering at
least the 4 length-prefix bytes. -/
theorem runLoop_cons4 (p : Params) (tm : ℕ → ℚ) (i : ℕ) (b0 b1 b2 b3 : ℕ)
    (rest : List ℕ) (st : SweepState) :
    runLoop p tm i (b0 :: b1 :: b2 :: b3 :: rest) st =
      if rest.take (leNum [b0, b1, b2, b3]) = [] then ([], .stopped)
      else
        match parse_output p st (tm i) (rest.take (leNum [b0, b1, b2, b3])) with
        | .error e => ([], .fatal e)
        | .ok (st', pub) =>
          let r := runLoop p tm (i + 1) (rest.drop (leNum [b0, b1, b2, b3])) st'
          (pub.toList ++ r.1, r.2) := by
  rw [runLoop.eq_def]

/-! ### C7: segment decoder contract and fatality of malformed frames -/

/-- C7.  Decoding a payload fails exactly when it is shorter than the
16-byte header or the remainder is not 4-byte aligned; otherwise the first
16 bytes give the two unsigned 64-bit little-endian edges and the
remaining `(length - 16) / 4` little-endian 4-byte sample words, in order.
A payload whose decode fails is fatal to the session: framed at the front
of the stream, it makes the run loop terminate with that error (no frames
are skipped). -/
theorem segment_decoder_contract (buf : List ℕ) :
    ((∃ e, decodeSegment buf = .error e) ↔
      buf.length < 16 ∨ (buf.length - 16) % 4 ≠ 0) ∧
    (16 ≤ buf.length → (buf.length - 16) % 4 = 0 →
      decodeSegment buf = .ok ⟨leNum (buf.take 8), leNum ((buf.drop 8).take 8),
        chunk4 (buf.drop 16)⟩ ∧
      (chunk4 (buf.drop 16)).length = (buf.length - 16) / 4 ∧
      ∀ k, k < (buf.length - 16) / 4 →
        (chunk4 (buf.drop 16))[k]? = some (leNum ((buf.drop (16 + 4 * k)).take 4))) ∧
    (∀ e (p : Params) (st : SweepState) (tm : ℕ → ℚ) (i : ℕ) (rest : List ℕ),
      decodeSegment buf = .error e → buf ≠ [] → buf.length < 4294967296 →
      runLoop p tm i (enc32 buf.length ++ (buf ++ rest)) st = ([], .fatal e)) := by
  refine ⟨?_, ?_, ?_⟩
  · unfold decodeSegment
    split_ifs with h1 h2
    · simp [h1]
    · simp [h1, h2]
    · simp [h1, h2]
  · intro h16 h4
    refine ⟨?_, ?_, ?_⟩
    · unfold decodeSegment
      rw [if_neg (by omega), if_neg (by simp [h4])]
    · rw [chunk4_length, List.length_drop]
    · intro k hk
      have hk' : k < (buf.drop 16).length / 4 := by
        rw [List.length_drop]
        exact hk
      rw [chunk4_getElem (buf.drop 16) k hk', List.drop_drop]
  · intro e p st tm i rest hdec hne hlt32
    have hstream : enc32 buf.length ++ (buf ++ rest)
        = buf.length % 256 :: buf.length / 256 % 256 :: buf.length / 65536 % 256
          :: buf.length / 16777216 % 256 :: (buf ++ rest) := by
      simp [enc32]
    have hle : leNum [buf.length % 256, buf.length / 256 % 256,
        buf.length / 65536 % 256, buf.length / 16777216 % 256] = buf.length := by
      have h := leNum_enc32 buf.length hlt32
      simpa [enc32] using h
    rw [hstream, runLoop_cons4, hle, List.take_left, if_neg hne]
    simp only [parse_output, hdec]

/-- Witness for C7 on a concrete well-formed 20-byte payload. -/
theorem segment_decoder_contract_witness :
    decodeSegment (List.replicate 20 0) = .ok ⟨leNum ((List.replicate 20 0).take 8),
      leNum (((List.replicate 20 0).drop 8).take 8),
      chunk4 ((List.replicate 20 0).drop 16)⟩ ∧
    (chunk4 ((List.replicate 20 0).drop 16))[0]?
      = some (leNum (((List.replicate 20 0).drop (16 + 4 * 0)).take 4)) :=
  ⟨((segment_decoder_contract (List.replicate 20 0)).2.1 (by simp) (by simp)).1,
    ((segment_decoder_contract (List.replicate 20 0)).2.1
      (by simp) (by simp)).2.2 0 (by simp)⟩

end HackRF

namespace HackRF

/-! ### C8: frame reader termination behaviour -/

/-- Counterexample to C8 as stated: a SHORT (1-byte) read of the length
prefix does not terminate the loop normally — `struct.unpack('I', buf)`
raises on the nonempty short buffer and the loop dies with an error. -/
theorem frame_reader_short_read_cex :
    runLoop ⟨0, 6000, 0, 0⟩ (fun _ => 0) 0 [1] ⟨[], [], 0⟩ = ([], .fatal .structError) ∧
    RunEnd.fatal .structError ≠ RunEnd.stopped := by
  refine ⟨?_, by simp⟩
  rw [runLoop.eq_def]

/-- C8 (amended: only an EMPTY read terminates the loop normally).  Each
frame is read as a 4-byte unsigned 32-bit length followed by at most that
many payload bytes; an empty read of the length prefix or of the payload
ends the loop normally as end-of-stream; a short nonempty read of the
length prefix is a fatal unpack error; and a short nonempty payload read
is handed to the decoder rather than treated as end-of-stream. -/
theorem frame_reader_behavior (p : Params) (tm : ℕ → ℚ) (i : ℕ) (st : SweepState) :
    runLoop p tm i [] st = ([], .stopped) ∧
    (∀ s : List ℕ, s ≠ [] → s.length < 4 →
      runLoop p tm i s st = ([], .fatal .structError)) ∧
    (∀ b0 b1 b2 b3 : ℕ, ∀ rest : List ℕ, rest.take (leNum [b0, b1, b2, b3]) = [] →
      runLoop p tm i (b0 :: b1 :: b2 :: b3 :: rest) st = ([], .stopped)) ∧
    (∀ b0 b1 b2 b3 : ℕ, ∀ rest : List ℕ, ∀ e : PErr,
      rest.take (leNum [b0, b1, b2, b3]) ≠ [] →
      parse_output p st (tm i) (rest.take (leNum [b0, b1, b2, b3])) = .error e →
      runLoop p tm i (b0 :: b1 :: b2 :: b3 :: rest) st = ([], .fatal e)) ∧
    (∀ b0 b1 b2 b3 : ℕ, ∀ rest : List ℕ, ∀ st' : SweepState,
      ∀ pub : Option (List ℚ × List ℕ),
      rest.take (leNum [b0, b1, b2, b3]) ≠ [] →
      parse_output p st (tm i) (rest.take (leNum [b0, b1, b2, b3])) = .ok (st', pub) →
      runLoop p tm i (b0 :: b1 :: b2 :: b3 :: rest) st =
        (pub.toList ++ (runLoop p tm (i + 1) (rest.drop (leNum [b0, b1, b2, b3])) st').1,
          (runLoop p tm (i + 1) (rest.drop (leNum [b0, b1, b2, b3])) st').2)) := by
  refine ⟨?_, ?_, ?_, ?_, ?_⟩
  · rw [runLoop.eq_def]
  · intro s hne hlen
    rcases s with _ | ⟨a, _ | ⟨b, _ | ⟨c, _ | ⟨d, t⟩⟩⟩⟩
    · exact absurd rfl hne
    · rw [runLoop.eq_def]
    · rw [runLoop.eq_def]
    · rw [runLoop.eq_def]
    · simp only [List.length_cons] at hlen
      omega
  · intro b0 b1 b2 b3 rest h
    rw [runLoop_cons4, if_pos h]
  · intro b0 b1 b2 b3 rest e h hparse
    rw [runLoop_cons4, if_neg h, hparse]
  · intro b0 b1 b2 b3 rest st' pub h hparse
    rw [runLoop_cons4, if_neg h, hparse]

/-- Witness for C8 at concrete streams: empty stream, a zero record length
(empty payload read), and a nonempty payload handed to the parser. -/
theorem frame_reader_behavior_witness :
    runLoop ⟨0, 6000, 0, 0⟩ (fun _ => 0) 0 [] ⟨[], [], 0⟩ = ([], .stopped) ∧
    runLoop ⟨0, 6000, 0, 0⟩ (fun _ => 0) 0 [7] ⟨[], [], 0⟩ = ([], .fatal .structError) ∧
    runLoop ⟨0, 6000, 0, 0⟩ (fun _ => 0) 0 [0, 0, 0, 0, 5] ⟨[], [], 0⟩ = ([], .stopped) :=
  ⟨(frame_reader_behavior ⟨0, 6000, 0, 0⟩ (fun _ => 0) 0 ⟨[], [], 0⟩).1,
    (frame_reader_behavior ⟨0, 6000, 0, 0⟩ (fun _ => 0) 0 ⟨[], [], 0⟩).2.1 [7]
      (by simp) (by simp),
    (frame_reader_behavior ⟨0, 6000, 0, 0⟩ (fun _ => 0) 0 ⟨[], [], 0⟩).2.2.1 0 0 0 0 [5]
      (by simp [leNum])⟩

/-! ### C9: there is no stop ≤ start validation in setup -/

/-- C9 names a code bug: the spec requires `setup` to fail with
`InvalidRangeError` when `stop_freq ≤ start_freq` and itself records that
the source does not validate.  Indeed the source's `setup` is total: at
`start_freq = stop_freq = 100` it raises nothing, computes
`step_count = 0`, and returns parameters with `stop_freq = start_freq`,
after which the process launch proceeds. -/
theorem setup_no_range_validation :
    (setup 100 100 1000 40 20000000 0 0 false).start_freq = 100 ∧
    (setup 100 100 1000 40 20000000 0 0 false).stop_freq = 100 ∧
    step_count 100 100 20000000 = 0 := by
  have hsc : step_count 100 100 20000000 = 0 := by
    unfold step_count
    have h1 : (((100 : ℤ) - (100 : ℤ) : ℤ) : ℚ) - 1 = ((-1 : ℤ) : ℚ) := by norm_num
    have h2 : (((20000000 : ℤ)) : ℚ) / 1000000 = ((20 : ℕ) : ℚ) := by norm_num
    rw [h1, h2, Rat.floor_intCast_div_natCast]
    decide
  refine ⟨by simp [setup], ?_, hsc⟩
  simp [setup, hsc]

/-! ### C10: a 16-byte payload decodes but divides by zero -/

/-- C10.  A payload of exactly 16 bytes passes the decoder's well-formed
checks (length ≥ 16, remainder a multiple of 4) and yields zero samples,
whereupon `parse_output` computes `step = (high - low) / 0` and dies with
`ZeroDivisionError` — so every guarantee about segment processing carries
the unstated precondition `sample_count ≥ 1`. -/
theorem zero_sample_divide (p : Params) (st : SweepState) (now : ℚ) (buf : List ℕ)
    (hlen : buf.length = 16) :
    decodeSegment buf = .ok ⟨leNum (buf.take 8), leNum ((buf.drop 8).take 8), []⟩ ∧
    parse_output p st now buf = .error .zeroDivision := by
  have hdrop : buf.drop 16 = [] := by
    rw [← hlen]
    exact List.drop_length buf
  have hdec : decodeSegment buf
      = .ok ⟨leNum (buf.take 8), leNum ((buf.drop 8).take 8), []⟩ := by
    unfold decodeSegment
    rw [if_neg (by omega), if_neg (by simp [hlen]), hdrop]
    simp [chunk4]
  refine ⟨hdec, ?_⟩
  simp only [parse_output, hdec]
  simp [processSegment]

/-- Witness for C10 at the all-zero 16-byte payload. -/
theorem zero_sample_divide_witness :
    parse_output ⟨0, 6000, 0, 0⟩ ⟨[], [], 0⟩ 0 (List.replicate 16 0)
      = .error .zeroDivision :=
  (zero_sample_divide ⟨0, 6000, 0, 0⟩ ⟨[], [], 0⟩ 0 (List.replicate 16 0) (by simp)).2

end HackRF
